import Mathlib

/-!
Verification of the fusekit dispatch core (include/fusekit/daemon.h).

The daemon singleton routes FUSE callbacks to entries of an in-process
tree.  We embed the routing algorithm shallowly: an entry is a tree node
with a child-lookup table and (for the operations the claims need) a
release and a utimens operation returning an error code; the daemon's
handlers become pure functions taking the root entry and the already
split path (an ordered list of segment names) explicitly.
-/

namespace fusekit

/-- The fuse_file_info structure, reduced to the field the daemon reads
and writes: the opaque file-handle token fh (0 = no handle attached). -/
structure FileInfo where
  fh : Nat
deriving DecidableEq

/-- struct timespec: seconds and nanoseconds. -/
structure Timespec where
  tv_sec : Int
  tv_nsec : Int
deriving DecidableEq

/-- struct utimbuf: seconds-granularity access and modification times. -/
structure Utimbuf where
  actime : Int
  modtime : Int
deriving DecidableEq

/-- A file hierarchy entry: named children plus the operations of the
entry interface that the verified handlers invoke.  releaseOp and
utimensOp return the entry's error code, treated opaquely by the daemon. -/
inductive Entry : Type where
  | mk (children : List (String × Entry))
       (releaseOp : FileInfo → Int)
       (utimensOp : Timespec → Timespec → Int)

/-- The child table of an entry. -/
def Entry.children : Entry → List (String × Entry)
  | Entry.mk cs _ _ => cs

/-- The entry's release operation. -/
def Entry.releaseOp : Entry → FileInfo → Int
  | Entry.mk _ r _ => r

/-- The entry's utimens operation. -/
def Entry.utimensOp : Entry → Timespec → Timespec → Int
  | Entry.mk _ _ u => u

/-- entry::child(name): lookup of a direct child by name; none models the
null pointer returned for an absent child. -/
def Entry.child (e : Entry) (name : String) : Option Entry :=
  (e.children.find? (fun c => c.fst == name)).map Prod.snd

/-- The errno value ENOENT; the daemon compares release results against
-ENOENT. -/
def ENOENT : Int := 2

/-- Result of find_entry: a reference to a real entry of the tree, or the
static no_entry sentinel. -/
inductive FindResult : Type where
  | found (e : Entry)
  | noent

/-- Release on a find_entry result.  Modelled from the spec: the Sentinel
Not-Found Node (fusekit/no_entry.h, not under src/) implements every
operation by reporting "does not exist", i.e. -ENOENT. -/
def FindResult.release : FindResult → FileInfo → Int
  | FindResult.found e, fi => e.releaseOp fi
  | FindResult.noent, _ => -ENOENT

/-- Utimens on a find_entry result.  Modelled from the spec: the Sentinel
Not-Found Node reports "does not exist" (-ENOENT) for every operation. -/
def FindResult.utimens : FindResult → Timespec → Timespec → Int
  | FindResult.found e, a, m => e.utimensOp a m
  | FindResult.noent, _, _ => -ENOENT

namespace daemon

/-- The do-while loop of daemon::find_entry on a non-empty segment list:
look up each segment on the current entry; a null child returns the
no_entry sentinel at once; after the last segment the current entry is
returned. -/
def walk : Entry → List String → FindResult
  | e, [] => FindResult.found e
  | e, s :: rest =>
    match e.child s with
    | none => FindResult.noent
    | some c => walk c rest

/-- daemon::find_entry: empty path returns the root, otherwise the loop
walks the tree from the root. -/
def find_entry (root : Entry) (pa : List String) : FindResult :=
  if pa.isEmpty then FindResult.found root else walk root pa

/-- The loop of find_entry, instrumented to also return the list of
segments for which a child lookup was attempted, in order. -/
def walkTrace : Entry → List String → FindResult × List String
  | e, [] => (FindResult.found e, [])
  | e, s :: rest =>
    match e.child s with
    | none => (FindResult.noent, [s])
    | some c =>
      let r := walkTrace c rest
      (r.fst, s :: r.snd)

/-- find_entry instrumented with the segments actually looked up. -/
def find_entry_trace (root : Entry) (pa : List String) :
    FindResult × List String :=
  if pa.isEmpty then (FindResult.found root, []) else walkTrace root pa

/-- daemon::unlink: takes back() of the path (undefined on an empty path,
modelled as none), pops it, resolves the remaining parent path and invokes
unlink on the resolved entry with the removed name.  The returned pair
describes the call made: the resolved target node and the name argument. -/
def unlink (root : Entry) (p : List String) :
    Option (FindResult × String) :=
  match p.getLast? with
  | none => none
  | some to_delete => some (find_entry root p.dropLast, to_delete)

/-- daemon::mknod: splits off the last segment and invokes mknod on the
entry resolved from the parent path, passing the name, mode and dev. -/
def mknod (root : Entry) (p : List String) (m : Nat) (t : Nat) :
    Option (FindResult × String × Nat × Nat) :=
  match p.getLast? with
  | none => none
  | some to_create => some (find_entry root p.dropLast, to_create, m, t)

/-- daemon::mkdir: splits off the last segment and invokes mkdir on the
entry resolved from the parent path, passing the name and mode. -/
def mkdir (root : Entry) (p : List String) (m : Nat) :
    Option (FindResult × String × Nat) :=
  match p.getLast? with
  | none => none
  | some to_create => some (find_entry root p.dropLast, to_create, m)

/-- daemon::rmdir: splits off the last segment and invokes rmdir on the
entry resolved from the parent path, passing the name. -/
def rmdir (root : Entry) (p : List String) :
    Option (FindResult × String) :=
  match p.getLast? with
  | none => none
  | some to_create => some (find_entry root p.dropLast, to_create)

/-- daemon::symlink: splits off the last segment and invokes symlink on
the entry resolved from the parent path, passing the name and target. -/
def symlink (root : Entry) (p : List String) (target : String) :
    Option (FindResult × String × String) :=
  match p.getLast? with
  | none => none
  | some name => some (find_entry root p.dropLast, name, target)

/-- Result of daemon::release: the value returned to fuse, the file-info
structure as left by the handler, and whether the attached file handle
was deleted. -/
structure ReleaseOut where
  ret : Int
  fi : FileInfo
  freed : Bool
deriving DecidableEq

/-- daemon::release: resolves the full path, invokes release on the
resolved entry, and if that returned -ENOENT while a non-null handle
token is attached, deletes the handle and zeroes the token before
returning the entry's own error code unchanged. -/
def release (root : Entry) (p : List String) (fi : FileInfo) : ReleaseOut :=
  let err := (find_entry root p).release fi
  if err = -ENOENT ∧ fi.fh ≠ 0 then
    { ret := err, fi := { fh := 0 }, freed := true }
  else
    { ret := err, fi := fi, freed := false }

/-- daemon::utime: zero-initializes a two-element timespec array, copies
the seconds-granularity access and modification times into the tv_sec
fields, and invokes utimens on the resolved entry with that pair. -/
def utime (root : Entry) (p : List String) (buf : Utimbuf) : Int :=
  let zeroed : Timespec := { tv_sec := 0, tv_nsec := 0 }
  let tv0 : Timespec := { zeroed with tv_sec := buf.actime }
  let tv1 : Timespec := { zeroed with tv_sec := buf.modtime }
  (find_entry root p).utimens tv0 tv1

end daemon

/-- The fuse callback verbs that daemon's constructor may bind. -/
inductive Verb : Type where
  | getattr | readlink | opendir | readdir | releasedir
  | read | write | truncate | vopen | release | chmod
  | mknod | unlink | mkdir | rmdir | symlink | flush
  | setxattr | getxattr | listxattr | removexattr
  | access | utimens | utime
deriving DecidableEq

/-- A callback-table slot value: the daemon's own static handler for a
verb, or an opaque extension-supplied handler. -/
inductive Handler : Type where
  | core (v : Verb)
  | ext (id : Nat)
deriving DecidableEq

/-- The fuse_operations table: an optional handler per verb. -/
def Ops : Type := Verb → Option Handler

/-- Which verbs the daemon constructor itself binds, as a function of
FUSE_USE_VERSION: access only above version 24, utimens above version 25,
utime otherwise, every other listed verb unconditionally. -/
def coreBinds (fuseVersion : Nat) (v : Verb) : Bool :=
  match v with
  | Verb.access => decide (24 < fuseVersion)
  | Verb.utimens => decide (25 < fuseVersion)
  | Verb.utime => decide (fuseVersion ≤ 25)
  | _ => true

/-- The daemon constructor's table construction: extendOperations runs
first on the table, then the daemon assigns its own static handler to
every verb it binds, overwriting any slot the extension filled. -/
def buildOps (fuseVersion : Nat) (extendOperations : Ops → Ops)
    (init : Ops) : Ops :=
  let ops := extendOperations init
  fun v =>
    if coreBinds fuseVersion v then some (Handler.core v) else ops v

/-- Phases of one dispatch call: idle before acquiring the locking-policy
guard, then the resolve phase and the invoke phase with the guard held,
then done after the guard's scope exit. -/
inductive TPhase : Type where
  | idle | resolving | invoking | done
deriving DecidableEq

/-- Whether a call in the given phase is inside its resolve-and-invoke
window (i.e. holds the guard). -/
def holdsGuard : TPhase → Bool
  | TPhase.resolving => true
  | TPhase.invoking => true
  | _ => false

/-- State of the process: the phase of each dispatch call, indexed by
thread. -/
def MState : Type := Nat → TPhase

/-- Initially no dispatch call has started. -/
def initState : MState := fun _ => TPhase.idle

/-- Modelled from the spec: the full-mutual-exclusion locking policy
(a mutex-based lock, not under src/; src only shows each handler holding
a scoped lock guard for its whole body).  A call acquires the guard only
when no other call holds it, then resolves, invokes, and releases the
guard on scope exit. -/
inductive MStep : MState → MState → Prop where
  | acquire (s : MState) (i : Nat) :
      s i = TPhase.idle → (∀ j, holdsGuard (s j) = false) →
      MStep s (Function.update s i TPhase.resolving)
  | invoke (s : MState) (i : Nat) :
      s i = TPhase.resolving →
      MStep s (Function.update s i TPhase.invoking)
  | scopeExit (s : MState) (i : Nat) :
      s i = TPhase.invoking →
      MStep s (Function.update s i TPhase.done)

/-- States reachable from the initial state by interleaved dispatch
calls under the full-mutual-exclusion policy. -/
def Reachable (s : MState) : Prop :=
  Relation.ReflTransGen MStep initState s

/-- Reference definition, following the spec's words for resolution:
the node reached from a start node by successive child lookups in
segment order, absent as soon as one lookup is absent. -/
def followChildren : Entry → List String → Option Entry
  | e, [] => some e
  | e, s :: rest =>
    match e.child s with
    | none => none
    | some c => followChildren c rest

/-- A childless entry whose release reports -ENOENT (a deleted backing
node) and whose utimens succeeds; used to evaluate the theorems. -/
def entryGone : Entry :=
  Entry.mk [] (fun _ => -ENOENT) (fun _ _ => 0)

/-- An entry with one child named a; its own operations succeed. -/
def entryParent : Entry :=
  Entry.mk [("a", entryGone)] (fun _ => 0) (fun _ _ => 0)

end fusekit

namespace fusekit

theorem walk_of_followChildren :
    ∀ (pa : List String) (root e : Entry),
      followChildren root pa = some e →
      daemon.walk root pa = FindResult.found e := by
  intro pa
  induction pa with
  | nil =>
    intro root e h
    simp [followChildren] at h
    simp [daemon.walk, h]
  | cons s rest ih =>
    intro root e h
    simp only [followChildren] at h
    simp only [daemon.walk]
    cases hc : root.child s with
    | none => rw [hc] at h; simp at h
    | some c =>
      rw [hc] at h
      simp only
      exact ih c e h

theorem walkTrace_fst :
    ∀ (pa : List String) (root : Entry),
      (daemon.walkTrace root pa).fst = daemon.walk root pa := by
  intro pa
  induction pa with
  | nil => intro root; rfl
  | cons s rest ih =>
    intro root
    simp only [daemon.walkTrace, daemon.walk]
    cases hc : root.child s with
    | none => simp
    | some c => simpa using ih c

theorem walkTrace_absent :
    ∀ (i : Nat) (pa : List String) (root e : Entry) (hi : i < pa.length),
      followChildren root (pa.take i) = some e →
      e.child (pa.get ⟨i, hi⟩) = none →
      daemon.walkTrace root pa = (FindResult.noent, pa.take (i + 1)) := by
  intro i
  induction i with
  | zero =>
    intro pa root e hi hpre habs
    cases pa with
    | nil => simp at hi
    | cons s rest =>
      simp [followChildren] at hpre
      subst hpre
      simp only [List.get] at habs
      simp [daemon.walkTrace, habs]
  | succ j ih =>
    intro pa root e hi hpre habs
    cases pa with
    | nil => simp at hi
    | cons s rest =>
      simp only [List.take, followChildren] at hpre
      cases hc : root.child s with
      | none => rw [hc] at hpre; simp at hpre
      | some c =>
        rw [hc] at hpre
        simp only at hpre
        have hj : j < rest.length := Nat.lt_of_succ_lt_succ hi
        have hg : rest.get ⟨j, hj⟩ = (s :: rest).get ⟨j + 1, hi⟩ := rfl
        have := ih rest c e hj hpre (by rw [hg]; exact habs)
        simp only [daemon.walkTrace, hc]
        simp [this, List.take]

/-- C1: for every path whose every segment resolves from the root via
successive child lookups, find_entry returns exactly the node reached by
those lookups in order, and a repeated call on the unchanged tree returns
the same node. -/
theorem find_entry_resolves (root : Entry) (pa : List String) (e : Entry)
    (h : followChildren root pa = some e) :
    daemon.find_entry root pa = FindResult.found e ∧
      daemon.find_entry root pa = daemon.find_entry root pa := by
  refine ⟨?_, rfl⟩
  cases pa with
  | nil =>
    simp [followChildren] at h
    simp [daemon.find_entry, h]
  | cons s rest =>
    simp only [daemon.find_entry, List.isEmpty_cons, if_neg]
    exact walk_of_followChildren (s :: rest) root e h

theorem find_entry_resolves_of_one :
    daemon.find_entry entryParent ["a"] = FindResult.found entryGone ∧
      daemon.find_entry entryParent ["a"] =
        daemon.find_entry entryParent ["a"] :=
  find_entry_resolves entryParent ["a"] entryGone rfl

/-- C2: if the walk reaches some entry e after the first i segments and
e has no child named by segment i, then find_entry returns the no_entry
sentinel, and the only segments for which a child lookup was attempted
are the first i+1, none after the absent one. -/
theorem find_entry_fail_fast (root e : Entry) (pa : List String) (i : Nat)
    (hi : i < pa.length)
    (hpre : followChildren root (pa.take i) = some e)
    (habs : e.child (pa.get ⟨i, hi⟩) = none) :
    daemon.find_entry_trace root pa = (FindResult.noent, pa.take (i + 1)) ∧
      daemon.find_entry root pa = FindResult.noent := by
  have hne : pa ≠ [] := by
    intro hnil
    rw [hnil] at hi
    simp at hi
  have htr := walkTrace_absent i pa root e hi hpre habs
  constructor
  · simp only [daemon.find_entry_trace, List.isEmpty_eq_true, if_neg hne]
    exact htr
  · simp only [daemon.find_entry, List.isEmpty_eq_true, if_neg hne]
    rw [← walkTrace_fst, htr]

theorem find_entry_fail_fast_on_gone :
    daemon.find_entry_trace entryGone ["x", "y"] =
        (FindResult.noent, ["x"]) ∧
      daemon.find_entry entryGone ["x", "y"] = FindResult.noent :=
  find_entry_fail_fast entryGone entryGone ["x", "y"] 0 (by decide) rfl rfl

/-- C3: each path-splitting verb resolves the path minus its final
segment and invokes its operation on that resolved parent, passing the
removed final segment as the explicit name argument (together with the
verb's other arguments); the final segment is not consumed by the walk. -/
theorem split_verbs_use_parent (root : Entry) (pre : List String)
    (last : String) (m t : Nat) (target : String) :
    daemon.unlink root (pre ++ [last]) =
        some (daemon.find_entry root pre, last) ∧
      daemon.mknod root (pre ++ [last]) m t =
        some (daemon.find_entry root pre, last, m, t) ∧
      daemon.mkdir root (pre ++ [last]) m =
        some (daemon.find_entry root pre, last, m) ∧
      daemon.rmdir root (pre ++ [last]) =
        some (daemon.find_entry root pre, last) ∧
      daemon.symlink root (pre ++ [last]) target =
        some (daemon.find_entry root pre, last, target) := by
  refine ⟨?_, ?_, ?_, ?_, ?_⟩ <;>
    simp [daemon.unlink, daemon.mknod, daemon.mkdir, daemon.rmdir,
      daemon.symlink, List.getLast?_concat, List.dropLast_concat]

/-- C4: on release, when the resolved entry's release operation reports
-ENOENT and a non-null handle token is attached, the handler frees the
token before returning, and the value returned to fuse is still the
entry's own result, unchanged. -/
theorem release_reclaims_handle (root : Entry) (p : List String)
    (fi : FileInfo)
    (herr : (daemon.find_entry root p).release fi = -ENOENT)
    (hfh : fi.fh ≠ 0) :
    (daemon.release root p fi).freed = true ∧
      (daemon.release root p fi).ret =
        (daemon.find_entry root p).release fi := by
  simp only [daemon.release]
  rw [if_pos (And.intro herr hfh)]
  exact ⟨rfl, rfl⟩

theorem release_reclaims_handle_on_gone :
    (daemon.release entryGone ["x"] { fh := 5 }).freed = true ∧
      (daemon.release entryGone ["x"] { fh := 5 }).ret =
        (daemon.find_entry entryGone ["x"]).release { fh := 5 } :=
  release_reclaims_handle entryGone ["x"] { fh := 5 } rfl (by decide)

/-- C5: resolving the empty path returns the root entry, for every tree
including one where the root has no children. -/
theorem find_entry_empty_is_root (root : Entry) :
    daemon.find_entry root [] = FindResult.found root := rfl

/-- C6: the seconds-granularity utime handler invokes the resolved
entry's utimens with a two-element high-resolution timestamp pair whose
seconds equal the given access and modification times and whose
nanosecond components are zero. -/
theorem utime_zeroes_nanoseconds (root : Entry) (p : List String)
    (buf : Utimbuf) :
    daemon.utime root p buf =
      (daemon.find_entry root p).utimens
        { tv_sec := buf.actime, tv_nsec := 0 }
        { tv_sec := buf.modtime, tv_nsec := 0 } := rfl

/-- C7: extension operations are merged before the daemon's own bindings,
so for every verb the daemon binds the daemon's handler ends up in the
table even if the extension filled that slot, while extension handlers
survive exactly on the verbs the daemon does not bind. -/
theorem core_bindings_win (fuseVersion : Nat)
    (extendOperations : Ops → Ops) (init : Ops) (v : Verb) :
    (coreBinds fuseVersion v = true →
        buildOps fuseVersion extendOperations init v =
          some (Handler.core v)) ∧
      (coreBinds fuseVersion v = false →
        buildOps fuseVersion extendOperations init v =
          extendOperations init v) := by
  constructor
  · intro h
    simp [buildOps, h]
  · intro h
    simp [buildOps, h]

theorem core_bindings_win_on_collision :
    buildOps 27 (fun _ => fun _ => some (Handler.ext 7))
        (fun _ => none) Verb.unlink = some (Handler.core Verb.unlink) ∧
      buildOps 27 (fun _ => fun _ => some (Handler.ext 7))
        (fun _ => none) Verb.utime = some (Handler.ext 7) :=
  ⟨(core_bindings_win 27 (fun _ => fun _ => some (Handler.ext 7))
      (fun _ => none) Verb.unlink).left (by decide),
    (core_bindings_win 27 (fun _ => fun _ => some (Handler.ext 7))
      (fun _ => none) Verb.utime).right (by decide)⟩

theorem reachable_at_most_one_holder (s : MState) (hs : Reachable s) :
    ∀ i j : Nat, holdsGuard (s i) = true → holdsGuard (s j) = true →
      i = j := by
  induction hs with
  | refl =>
    intro i j hi _
    simp [initState, holdsGuard] at hi
  | tail _ hstep ih =>
    cases hstep with
    | acquire k hk hfree =>
      intro i j hi hj
      by_cases hik : i = k
      · by_cases hjk : j = k
        · rw [hik, hjk]
        · rw [Function.update_noteq hjk] at hj
          have hc := hfree j
          rw [hj] at hc
          cases hc
      · rw [Function.update_noteq hik] at hi
        have hc := hfree i
        rw [hi] at hc
        cases hc
    | invoke k hk =>
      intro i j hi hj
      by_cases hik : i = k
      · by_cases hjk : j = k
        · rw [hik, hjk]
        · rw [Function.update_noteq hjk] at hj
          rw [hik]
          refine ih k j ?_ hj
          rw [hk]
          rfl
      · rw [Function.update_noteq hik] at hi
        by_cases hjk : j = k
        · rw [hjk]
          refine ih i k hi ?_
          rw [hk]
          rfl
        · rw [Function.update_noteq hjk] at hj
          exact ih i j hi hj
    | scopeExit k hk =>
      intro i j hi hj
      by_cases hik : i = k
      · rw [hik, Function.update_same] at hi
        cases hi
      · rw [Function.update_noteq hik] at hi
        by_cases hjk : j = k
        · rw [hjk, Function.update_same] at hj
          cases hj
        · rw [Function.update_noteq hjk] at hj
          exact ih i j hi hj

/-- C8: under the full-mutual-exclusion locking policy, in every
reachable state no two distinct dispatch calls are simultaneously inside
their resolve-and-invoke windows: the windows never overlap. -/
theorem dispatch_mutual_exclusion (s : MState) (hs : Reachable s)
    (i j : Nat) (hij : i ≠ j) :
    ¬(holdsGuard (s i) = true ∧ holdsGuard (s j) = true) := by
  intro h
  exact hij (reachable_at_most_one_holder s hs i j h.left h.right)

theorem dispatch_mutual_exclusion_after_acquire :
    ¬(holdsGuard (Function.update initState 0 TPhase.resolving 0) = true ∧
      holdsGuard (Function.update initState 0 TPhase.resolving 1) = true) :=
  dispatch_mutual_exclusion
    (Function.update initState 0 TPhase.resolving)
    (Relation.ReflTransGen.single
      (MStep.acquire initState 0 rfl (fun _ => rfl)))
    0 1 (by decide)

/-- C9: every path-splitting handler takes back() of the path and pops it
with no emptiness guard, so it is well-defined exactly on paths with at
least one segment: on the root path (no segments) it reaches the
unguarded back/pop_back on an empty sequence, modelled as none. -/
theorem split_verbs_need_nonempty_path (root : Entry) (p : List String)
    (m t : Nat) (target : String) :
    (daemon.unlink root p = none ↔ p = []) ∧
      (daemon.mknod root p m t = none ↔ p = []) ∧
      (daemon.mkdir root p m = none ↔ p = []) ∧
      (daemon.rmdir root p = none ↔ p = []) ∧
      (daemon.symlink root p target = none ↔ p = []) := by
  have hlast : p.getLast? = none ↔ p = [] := List.getLast?_eq_none_iff
  refine ⟨?_, ?_, ?_, ?_, ?_⟩ <;>
  · simp only [daemon.unlink, daemon.mknod, daemon.mkdir, daemon.rmdir,
      daemon.symlink]
    cases hl : p.getLast? with
    | none => simpa [hl] using hlast
    | some a =>
      simp only [hl]
      constructor
      · intro hc; cases hc
      · intro hp
        rw [hp] at hl
        cases hl

/-- C10: the release handler frees the attached handle token exactly when
the entry's release result is -ENOENT and the token is non-null; then the
token field is reset to zero, otherwise the file-info structure is left
untouched, and in every case the entry's result code is returned. -/
theorem release_frees_iff_enoent (root : Entry) (p : List String)
    (fi : FileInfo) :
    ((daemon.release root p fi).freed = true ↔
        ((daemon.find_entry root p).release fi = -ENOENT ∧ fi.fh ≠ 0)) ∧
      ((daemon.release root p fi).freed = true →
        (daemon.release root p fi).fi.fh = 0) ∧
      ((daemon.release root p fi).freed = false →
        (daemon.release root p fi).fi = fi) ∧
      (daemon.release root p fi).ret =
        (daemon.find_entry root p).release fi := by
  simp only [daemon.release]
  by_cases h : (daemon.find_entry root p).release fi = -ENOENT ∧ fi.fh ≠ 0
  · rw [if_pos h]
    refine ⟨by simpa using h, fun _ => rfl, ?_, rfl⟩
    intro hf; cases hf
  · rw [if_neg h]
    refine ⟨by simpa using h, ?_, fun _ => rfl, rfl⟩
    intro hf; cases hf

theorem release_frees_iff_enoent_on_gone :
    (daemon.release entryGone [] { fh := 3 }).freed = true ∧
      (daemon.release entryGone [] { fh := 3 }).fi.fh = 0 ∧
      (daemon.release entryGone [] { fh := 3 }).ret = -ENOENT := by
  have h := release_frees_iff_enoent entryGone [] { fh := 3 }
  have hfreed : (daemon.release entryGone [] { fh := 3 }).freed = true :=
    h.left.mpr ⟨rfl, by decide⟩
  exact ⟨hfreed, h.right.left hfreed, h.right.right.right.trans rfl⟩

end fusekit
